import Mathlib

/-!
Verification development for the shizai-downloader repository.

The repository has two acquisition engines:
* `src/npm.js` — a recursive npm dependency walker (`downloadTarball`) that
  deduplicates by `(name, version)` identity through a process-wide `Set`,
  downloads tarballs unless the destination file exists, resolves dependency
  ranges through `semver.maxSatisfying`, and recurses.
* `download-docker.js` — a Docker image puller that selects a tag when none is
  given, resolves manifest lists / OCI indexes through an interactive platform
  selection, streams layers into a tar archive with a per-layer try/catch, and
  appends the config blob last.

The embedding below models the registries, the network, the on-disk state and
the interactive prompts explicitly; every network request is recorded in an
event log so that "performs I/O" claims become statements about the log.
-/

namespace Shizai

/-! ## Semantic versions, modelled from the spec

The version resolver of the walker is the external `semver` npm library
(`semver.maxSatisfying(versions, range)`), which is not part of this
repository's sources.  The definitions in this section are therefore
`Modelled from the spec:` standard semver precedence (prerelease below
release), comparator / caret / tilde / wildcard ranges, and selection of the
highest satisfying version.
-/

/-- A prerelease identifier: numeric identifiers compare below alphanumeric
ones, numerically among themselves; alphanumeric ones compare as strings. -/
inductive PreId where
  | num (n : Nat)
  | str (s : String)
deriving DecidableEq, Repr

/-- Modelled from the spec: a semantic version `major.minor.patch` with an
optional prerelease suffix (empty `pre` means a release version). -/
structure SemVer where
  major : Nat
  minor : Nat
  patch : Nat
  pre : List PreId
deriving DecidableEq, Repr

/-- Key of one prerelease identifier inside the lexicographic order. -/
def preIdKey : PreId → Nat ⊕ₗ String
  | PreId.num n => toLex (Sum.inl n)
  | PreId.str s => toLex (Sum.inr s)

/-- Key of a prerelease suffix: a release (empty suffix) is above every
prerelease of the same triple, prereleases compare lexicographically. -/
def preKey (p : List PreId) : WithTop (List (Nat ⊕ₗ String)) :=
  if p = [] then ⊤ else (p.map preIdKey : List (Nat ⊕ₗ String))

/-- Order key realising semver precedence. -/
def toKey (v : SemVer) : Nat ×ₗ (Nat ×ₗ (Nat ×ₗ WithTop (List (Nat ⊕ₗ String)))) :=
  toLex (v.major, toLex (v.minor, toLex (v.patch, preKey v.pre)))

/-- Semver precedence, non-strict. -/
def svle (a b : SemVer) : Prop := toKey a ≤ toKey b

/-- Semver precedence, strict. -/
def svlt (a b : SemVer) : Prop := toKey a < toKey b

instance (a b : SemVer) : Decidable (svle a b) :=
  inferInstanceAs (Decidable (toKey a ≤ toKey b))

instance (a b : SemVer) : Decidable (svlt a b) :=
  inferInstanceAs (Decidable (toKey a < toKey b))

theorem preIdKey_injective : Function.Injective preIdKey := by
  intro a b h
  cases a <;> cases b <;> simp [preIdKey, toLex] at h <;> simp [h]

theorem preKey_injective : Function.Injective preKey := by
  intro a b h
  by_cases ha : a = [] <;> by_cases hb : b = []
  · simp [ha, hb]
  · simp [preKey, ha, hb] at h
  · simp [preKey, ha, hb] at h
  · simp only [preKey, ha, hb, if_neg, ite_false] at h
    exact List.map_injective_iff.2 preIdKey_injective (WithTop.coe_inj.1 h)

theorem toKey_injective : Function.Injective toKey := by
  intro a b h
  simp only [toKey, toLex_inj, Prod.mk.injEq] at h
  obtain ⟨h1, h2, h3, h4⟩ := h
  cases a; cases b
  simp only [SemVer.mk.injEq]
  exact ⟨h1, h2, h3, preKey_injective h4⟩

theorem svle_refl (a : SemVer) : svle a a := le_refl _

theorem svle_trans {a b c : SemVer} (h1 : svle a b) (h2 : svle b c) : svle a c :=
  le_trans h1 h2

theorem svle_total (a b : SemVer) : svle a b ∨ svle b a := le_total _ _

theorem svle_antisymm {a b : SemVer} (h1 : svle a b) (h2 : svle b a) : a = b :=
  toKey_injective (le_antisymm h1 h2)

/-- A primitive comparator operator of a range. -/
inductive CmpOp where
  | ltOp
  | leOp
  | gtOp
  | geOp
  | eqOp
deriving DecidableEq, Repr

/-- Modelled from the spec: one atom of a semver range — a comparator, a caret
range, a tilde range, or a wildcard (`*`, `1.x`, `1.2.x`). -/
inductive RangeAtom where
  | cmp (op : CmpOp) (v : SemVer)
  | caret (v : SemVer)
  | tilde (v : SemVer)
  | anyVersion
  | majorOnly (major : Nat)
  | majorMinor (major minor : Nat)
deriving DecidableEq, Repr

/-- Modelled from the spec: a range is a disjunction of conjunctions of atoms
(`||` between space-separated comparator groups). -/
abbrev Range := List (List RangeAtom)

/-- Exclusive upper bound of a caret range (`^1.2.3`, `^0.2.3`, `^0.0.3`). -/
def caretUpper (v : SemVer) : SemVer :=
  if v.major ≠ 0 then ⟨v.major + 1, 0, 0, []⟩
  else if v.minor ≠ 0 then ⟨0, v.minor + 1, 0, []⟩
  else ⟨0, 0, v.patch + 1, []⟩

/-- Satisfaction of one range atom, by semver precedence. -/
def atomSat (v : SemVer) : RangeAtom → Bool
  | RangeAtom.cmp CmpOp.ltOp w => decide (svlt v w)
  | RangeAtom.cmp CmpOp.leOp w => decide (svle v w)
  | RangeAtom.cmp CmpOp.gtOp w => decide (svlt w v)
  | RangeAtom.cmp CmpOp.geOp w => decide (svle w v)
  | RangeAtom.cmp CmpOp.eqOp w => decide (v = w)
  | RangeAtom.caret w => decide (svle w v) && decide (svlt v (caretUpper w))
  | RangeAtom.tilde w => decide (svle w v) && decide (svlt v ⟨w.major, w.minor + 1, 0, []⟩)
  | RangeAtom.anyVersion => true
  | RangeAtom.majorOnly m => decide (v.major = m)
  | RangeAtom.majorMinor mj mi => decide (v.major = mj ∧ v.minor = mi)

/-- Does the atom explicitly ask for a prerelease of the triple of `v`?  A
prerelease version only satisfies a comparator group that mentions a
prerelease with the same `(major, minor, patch)` triple. -/
def atomAsksPre (v : SemVer) : RangeAtom → Bool
  | RangeAtom.cmp _ w => decide (w.pre ≠ [] ∧ w.major = v.major ∧ w.minor = v.minor ∧ w.patch = v.patch)
  | RangeAtom.caret w => decide (w.pre ≠ [] ∧ w.major = v.major ∧ w.minor = v.minor ∧ w.patch = v.patch)
  | RangeAtom.tilde w => decide (w.pre ≠ [] ∧ w.major = v.major ∧ w.minor = v.minor ∧ w.patch = v.patch)
  | _ => false

/-- Satisfaction of one comparator group (conjunction of atoms, with the
standard prerelease gate). -/
def conjSat (v : SemVer) (conj : List RangeAtom) : Bool :=
  conj.all (atomSat v) && (decide (v.pre = []) || conj.any (atomAsksPre v))

/-- Modelled from the spec: `satisfies(version, range)` of the semver library. -/
def satisfies (v : SemVer) (r : Range) : Bool :=
  r.any (conjSat v)

/-- One step of the maximum fold: keep the larger of the accumulator and the
candidate, by semver precedence. -/
def pickMax (acc : Option SemVer) (v : SemVer) : Option SemVer :=
  match acc with
  | none => some v
  | some m => if svle m v then some v else some m

/-- Modelled from the spec: `semver.maxSatisfying(versions, range)` — the
highest version of the list satisfying the range, or none. -/
def maxSatisfying (vs : List SemVer) (r : Range) : Option SemVer :=
  (vs.filter fun v => satisfies v r).foldl pickMax none

theorem foldl_pickMax_some {l : List SemVer} {a m : SemVer}
    (h : l.foldl pickMax (some a) = some m) :
    svle a m ∧ ∀ x ∈ l, svle x m := by
  induction l generalizing a with
  | nil =>
    simp only [List.foldl_nil, Option.some.injEq] at h
    subst h
    exact ⟨svle_refl a, by simp⟩
  | cons x xs ih =>
    simp only [List.foldl_cons] at h
    by_cases hax : svle a x
    · simp only [pickMax, hax, if_pos] at h
      obtain ⟨h1, h2⟩ := ih h
      refine ⟨svle_trans hax h1, ?_⟩
      intro y hy
      rcases List.mem_cons.1 hy with rfl | hy
      · exact h1
      · exact h2 y hy
    · simp only [pickMax, hax, if_neg, ite_false] at h
      obtain ⟨h1, h2⟩ := ih h
      refine ⟨h1, ?_⟩
      intro y hy
      rcases List.mem_cons.1 hy with rfl | hy
      · rcases svle_total y a with h' | h'
        · exact svle_trans h' h1
        · exact absurd h' hax
      · exact h2 y hy

theorem foldl_pickMax_mem {l : List SemVer} {a m : SemVer}
    (h : l.foldl pickMax (some a) = some m) :
    m = a ∨ m ∈ l := by
  induction l generalizing a with
  | nil =>
    simp only [List.foldl_nil, Option.some.injEq] at h
    exact Or.inl h.symm
  | cons x xs ih =>
    simp only [List.foldl_cons] at h
    by_cases hax : svle a x
    · simp only [pickMax, hax, if_pos] at h
      rcases ih h with rfl | hm
      · exact Or.inr (List.mem_cons_self _ _)
      · exact Or.inr (List.mem_cons_of_mem _ hm)
    · simp only [pickMax, hax, if_neg, ite_false] at h
      rcases ih h with rfl | hm
      · exact Or.inl rfl
      · exact Or.inr (List.mem_cons_of_mem _ hm)

theorem foldl_pickMax_none_char {l : List SemVer} {m : SemVer}
    (h : l.foldl pickMax none = some m) :
    m ∈ l ∧ ∀ x ∈ l, svle x m := by
  cases l with
  | nil => simp at h
  | cons x xs =>
    simp only [List.foldl_cons, pickMax] at h
    obtain ⟨h1, h2⟩ := foldl_pickMax_some h
    rcases foldl_pickMax_mem h with rfl | hm
    · exact ⟨List.mem_cons_self _ _, by
        intro y hy
        rcases List.mem_cons.1 hy with rfl | hy
        · exact h1
        · exact h2 y hy⟩
    · exact ⟨List.mem_cons_of_mem _ hm, by
        intro y hy
        rcases List.mem_cons.1 hy with rfl | hy
        · exact h1
        · exact h2 y hy⟩

theorem foldl_pickMax_isSome {l : List SemVer} {a : SemVer} :
    (l.foldl pickMax (some a)).isSome = true := by
  induction l generalizing a with
  | nil => simp
  | cons x xs ih =>
    simp only [List.foldl_cons, pickMax]
    by_cases hax : svle a x <;> simp [hax, ih]

theorem maxSatisfying_spec (vs : List SemVer) (r : Range) (m : SemVer) :
    maxSatisfying vs r = some m ↔
      m ∈ vs ∧ satisfies m r = true ∧ ∀ v ∈ vs, satisfies v r = true → svle v m := by
  constructor
  · intro h
    obtain ⟨hm, hub⟩ := foldl_pickMax_none_char h
    have hmem := List.mem_filter.1 hm
    refine ⟨hmem.1, hmem.2, ?_⟩
    intro v hv hsat
    exact hub v (List.mem_filter.2 ⟨hv, hsat⟩)
  · rintro ⟨hm, hsat, hub⟩
    have hmf : m ∈ vs.filter fun v => satisfies v r := List.mem_filter.2 ⟨hm, hsat⟩
    cases hfil : vs.filter fun v => satisfies v r with
    | nil => simp [hfil] at hmf
    | cons x xs =>
      have hne : ((x :: xs).foldl pickMax none).isSome = true := by
        simp only [List.foldl_cons, pickMax]
        exact foldl_pickMax_isSome
      obtain ⟨m', hm'⟩ := Option.isSome_iff_exists.1 hne
      have hchar := foldl_pickMax_none_char (l := x :: xs) (m := m') hm'
      have hm'filter : m' ∈ vs.filter fun v => satisfies v r := by
        rw [hfil]; exact hchar.1
      have hm'vs := List.mem_filter.1 hm'filter
      have h1 : svle m' m := hub m' hm'vs.1 hm'vs.2
      have h2 : svle m m' := hchar.2 m (hfil ▸ hmf)
      have : m' = m := svle_antisymm h1 h2
      unfold maxSatisfying
      rw [hfil, hm', this]

theorem maxSatisfying_none (vs : List SemVer) (r : Range) :
    maxSatisfying vs r = none ↔ ∀ v ∈ vs, ¬ satisfies v r = true := by
  constructor
  · intro h v hv hsat
    have hmf : v ∈ vs.filter fun v => satisfies v r := List.mem_filter.2 ⟨hv, hsat⟩
    cases hfil : vs.filter fun v => satisfies v r with
    | nil => simp [hfil] at hmf
    | cons x xs =>
      unfold maxSatisfying at h
      rw [hfil] at h
      have : ((x :: xs).foldl pickMax none).isSome = true := by
        simp only [List.foldl_cons, pickMax]
        exact foldl_pickMax_isSome
      rw [h] at this
      simp at this
  · intro h
    have : vs.filter (fun v => satisfies v r) = [] := by
      rw [List.filter_eq_nil_iff]
      intro v hv
      simpa using h v hv
    unfold maxSatisfying
    rw [this]
    rfl

theorem maxSatisfying_perm {vs vs' : List SemVer} (r : Range) (hp : vs.Perm vs') :
    maxSatisfying vs r = maxSatisfying vs' r := by
  cases hres : maxSatisfying vs' r with
  | none =>
    rw [maxSatisfying_none] at hres ⊢
    intro v hv
    exact hres v (hp.mem_iff.1 hv)
  | some m =>
    rw [maxSatisfying_spec] at hres ⊢
    obtain ⟨h1, h2, h3⟩ := hres
    exact ⟨hp.mem_iff.2 h1, h2, fun v hv hs => h3 v (hp.mem_iff.1 hv) hs⟩

/-! ## The npm dependency walker (`src/npm.js`)

`downloadTarball(name, version)` is embedded as `walk`.  The process-wide
mutable world (the `downloadedPackages` set, the console, the filesystem) is
an explicit state `St`; every network request appends an `Event` to the log.
A thrown JavaScript exception is the `some err` component of the result: it
propagates to the caller and skips the rest of the work, while the state
mutations made so far are kept (as with a global `Set` and the real disk).
The recursion is fuel-indexed; `fuelOut` records that fuel ran out, which the
termination theorem shows never happens for sufficient fuel. -/

/-- The deduplication key of `downloadedPackages`: `name@version`. -/
abbrev Identity := String × SemVer

/-- A network or console event of the walker, in order of occurrence:
`fetchVer` is `npmFetch.json(/name/version)`, `fetchPkg` is
`npmFetch.json(/name)` from `fetchPackageMetadata`, `fetchTarball` is the
request for the tarball body (with its destination path), `warnNoVersion` is
the `適合するバージョンが見つかりませんでした` warning. -/
inductive Event where
  | fetchVer (id : Identity)
  | fetchPkg (name : String)
  | fetchTarball (url : String) (dest : String)
  | warnNoVersion (name : String)
deriving DecidableEq, Repr

/-- A thrown exception: a failed metadata request or a failed tarball
request. -/
inductive Err where
  | metaFail (name : String)
  | blobFail (url : String)
deriving DecidableEq, Repr

/-- Version metadata (`metadata.dependencies`, `metadata.dist.tarball`). -/
structure VMeta where
  dependencies : List (String × Range)
  tarball : String
deriving DecidableEq

/-- The npm registry and network: `packages` maps a package name to the keys
of `metadata.versions` (a missing entry models a thrown
`fetchPackageMetadata`), `versions` maps an identity to its version metadata
(a missing entry models a thrown `npmFetch.json(/name/version)`), `blobOk`
tells whether the tarball body request succeeds. -/
structure Registry where
  packages : List (String × List SemVer)
  versions : List (Identity × VMeta)
  blobOk : String → Bool

/-- The mutable world of the walker: the `downloadedPackages` set, the event
log, the files existing on disk, and the fuel-exhaustion marker of the
embedding. -/
structure St where
  seen : Finset Identity
  log : List Event
  files : List String
  fuelOut : Bool
deriving DecidableEq

/-- Result of a walker call: final state plus the exception, if one
propagated out. -/
abbrev WRes := St × Option Err

/-- `path.basename(url.parse(u).pathname)`: the final path segment — the
characters after the last `/` (the whole string when there is none). -/
def pathBasename (s : String) : String :=
  String.mk (s.toList.foldl (fun acc c => if c = '/' then [] else acc ++ [c]) [])

/-- The destination path of a tarball:
`path.join('downloads', 'npm-packages', tarballName)`. -/
def destOf (m : VMeta) : String :=
  "downloads/npm-packages/" ++ pathBasename m.tarball

/-- Lookup of `metadata.versions`-level package metadata. -/
def findPkg (reg : Registry) (name : String) : Option (List SemVer) :=
  (reg.packages.find? fun p => decide (p.1 = name)).map (·.2)

/-- Lookup of per-version metadata. -/
def findVer (reg : Registry) (id : Identity) : Option VMeta :=
  (reg.versions.find? fun p => decide (p.1 = id)).map (·.2)

/-- Append one event to the log. -/
def pushEv (st : St) (e : Event) : St :=
  { st with log := st.log ++ [e] }

/-- The tarball download step of `downloadTarball`: the
`if (!fs.existsSync(destPath))` block.  If the destination exists nothing
happens; otherwise the body request is issued (and logged), and on success
the file appears on disk. -/
def downloadStep (reg : Registry) (m : VMeta) (st : St) : WRes :=
  if destOf m ∈ st.files then (st, none)
  else
    let st1 := pushEv st (Event.fetchTarball m.tarball (destOf m))
    if reg.blobOk m.tarball then
      ({ st1 with files := st1.files ++ [destOf m] }, none)
    else (st1, some (Err.blobFail m.tarball))

/-- The dependency loop of `downloadTarball`, parametrised by the recursive
call `w`.  Each edge fetches the dependency's package metadata (a throw
aborts the loop and propagates), resolves the range with
`semver.maxSatisfying`, recurses on success and warns on a not-found. -/
def processDeps (reg : Registry) (w : Identity → St → WRes) :
    List (String × Range) → St → WRes
  | [], st => (st, none)
  | (dn, range) :: rest, st =>
    let stA := pushEv st (Event.fetchPkg dn)
    match findPkg reg dn with
    | none => (stA, some (Err.metaFail dn))
    | some vers =>
      match maxSatisfying vers range with
      | some v =>
        match w (dn, v) stA with
        | (stB, some e) => (stB, some e)
        | (stB, none) => processDeps reg w rest stB
      | none => processDeps reg w rest (pushEv stA (Event.warnNoVersion dn))

/-- `downloadTarball(name, version)`, fuel-indexed.  The identity is checked
against and inserted into the seen-set before any I/O; then the version
metadata is fetched, the tarball downloaded unless the destination exists,
and the dependency edges are processed recursively. -/
def walk (reg : Registry) : Nat → Identity → St → WRes
  | 0, id, st =>
    if id ∈ st.seen then (st, none)
    else ({ st with fuelOut := true }, none)
  | Nat.succ m, id, st =>
    if id ∈ st.seen then (st, none)
    else
      let st1 := { st with seen := insert id st.seen }
      let st2 := pushEv st1 (Event.fetchVer id)
      match findVer reg id with
      | none => (st2, some (Err.metaFail id.1))
      | some meta =>
        match downloadStep reg meta st2 with
        | (st3, some e) => (st3, some e)
        | (st3, none) => processDeps reg (fun i s => walk reg m i s) meta.dependencies st3

/-- State extension: the seen-set only grows, the log and the file list are
only appended to. -/
def Ext (s s' : St) : Prop :=
  s.seen ⊆ s'.seen ∧ (∃ t, s'.log = s.log ++ t) ∧ ∃ t, s'.files = s.files ++ t

theorem ext_refl (s : St) : Ext s s :=
  ⟨Finset.Subset.refl _, ⟨[], by simp⟩, ⟨[], by simp⟩⟩

theorem ext_trans {a b c : St} (h1 : Ext a b) (h2 : Ext b c) : Ext a c := by
  obtain ⟨s1, ⟨t1, l1⟩, ⟨u1, f1⟩⟩ := h1
  obtain ⟨s2, ⟨t2, l2⟩, ⟨u2, f2⟩⟩ := h2
  exact ⟨Finset.Subset.trans s1 s2, ⟨t1 ++ t2, by simp [l2, l1]⟩,
    ⟨u1 ++ u2, by simp [f2, f1]⟩⟩

theorem ext_pushEv (s : St) (e : Event) : Ext s (pushEv s e) :=
  ⟨Finset.Subset.refl _, ⟨[e], rfl⟩, ⟨[], by simp [pushEv]⟩⟩

theorem ext_insert (s : St) (id : Identity) :
    Ext s { s with seen := insert id s.seen } :=
  ⟨Finset.subset_insert _ _, ⟨[], by simp⟩, ⟨[], by simp⟩⟩

theorem ext_mem_log {a b : St} (h : Ext a b) {e : Event} (he : e ∈ a.log) :
    e ∈ b.log := by
  obtain ⟨_, ⟨t, hl⟩, _⟩ := h
  rw [hl]
  exact List.mem_append_left _ he

theorem downloadStep_seen (reg : Registry) (m : VMeta) (st : St) :
    (downloadStep reg m st).1.seen = st.seen := by
  by_cases h : destOf m ∈ st.files
  · simp [downloadStep, h]
  · by_cases hb : reg.blobOk m.tarball <;> simp [downloadStep, h, hb, pushEv]

theorem downloadStep_fuelOut (reg : Registry) (m : VMeta) (st : St) :
    (downloadStep reg m st).1.fuelOut = st.fuelOut := by
  by_cases h : destOf m ∈ st.files
  · simp [downloadStep, h]
  · by_cases hb : reg.blobOk m.tarball <;> simp [downloadStep, h, hb, pushEv]

theorem ext_downloadStep (reg : Registry) (m : VMeta) (st : St) :
    Ext st (downloadStep reg m st).1 := by
  by_cases h : destOf m ∈ st.files
  · simp only [downloadStep, h, if_pos]
    exact ext_refl st
  · by_cases hb : reg.blobOk m.tarball
    · simp only [downloadStep, h, hb, ite_false, if_pos]
      exact ⟨Finset.Subset.refl _, ⟨[Event.fetchTarball m.tarball (destOf m)], rfl⟩,
        ⟨[destOf m], rfl⟩⟩
    · simp only [downloadStep, h, hb, ite_false, if_neg]
      exact ext_pushEv st _

theorem ext_processDeps (reg : Registry) (w : Identity → St → WRes)
    (hw : ∀ i s, Ext s (w i s).1) :
    ∀ deps st, Ext st (processDeps reg w deps st).1 := by
  intro deps
  induction deps with
  | nil => intro st; exact ext_refl st
  | cons e rest ih =>
    intro st
    obtain ⟨dn, range⟩ := e
    simp only [processDeps]
    cases hfp : findPkg reg dn with
    | none => exact ext_pushEv st _
    | some vers =>
      dsimp only
      cases hms : maxSatisfying vers range with
      | some v =>
        dsimp only
        cases hw' : w (dn, v) (pushEv st (Event.fetchPkg dn)) with
        | mk stB err =>
          have hExtB : Ext st stB := by
            have := hw (dn, v) (pushEv st (Event.fetchPkg dn))
            rw [hw'] at this
            exact ext_trans (ext_pushEv st _) this
          cases err with
          | none => exact ext_trans hExtB (ih stB)
          | some e => exact hExtB
      | none =>
        dsimp only
        exact ext_trans (ext_trans (ext_pushEv st _) (ext_pushEv _ _)) (ih _)

theorem ext_walk (reg : Registry) :
    ∀ n id st, Ext st (walk reg n id st).1 := by
  intro n
  induction n with
  | zero =>
    intro id st
    by_cases h : id ∈ st.seen <;>
      simp only [walk, h, if_pos, ite_false] <;>
      exact ⟨Finset.Subset.refl _, ⟨[], by simp⟩, ⟨[], by simp⟩⟩
  | succ m ih =>
    intro id st
    by_cases h : id ∈ st.seen
    · simp only [walk, h, if_pos]
      exact ext_refl st
    · simp only [walk, h, ite_false]
      have h01 : Ext st { st with seen := insert id st.seen } := ext_insert st id
      have h02 : Ext st (pushEv { st with seen := insert id st.seen } (Event.fetchVer id)) :=
        ext_trans h01 (ext_pushEv _ _)
      cases hfv : findVer reg id with
      | none => exact h02
      | some meta =>
        dsimp only
        have h03 := ext_trans h02 (ext_downloadStep reg meta _)
        cases hds : downloadStep reg meta
            (pushEv { st with seen := insert id st.seen } (Event.fetchVer id)) with
        | mk st3 err =>
          rw [hds] at h03
          cases err with
          | some e => exact h03
          | none =>
            dsimp only
            exact ext_trans h03
              (ext_processDeps reg _ (fun i s => ih i s) meta.dependencies st3)

theorem walk_noop (reg : Registry) (n : Nat) (id : Identity) (st : St)
    (h : id ∈ st.seen) : walk reg n id st = (st, none) := by
  cases n <;> simp [walk, h]

theorem walk_mem_seen (reg : Registry) (m : Nat) (id : Identity) (st : St) :
    id ∈ (walk reg (m + 1) id st).1.seen := by
  by_cases h : id ∈ st.seen
  · rw [walk_noop reg _ id st h]
    exact h
  · simp only [walk, h, ite_false]
    cases hfv : findVer reg id with
    | none => exact Finset.mem_insert_self id st.seen
    | some meta =>
      dsimp only
      cases hds : downloadStep reg meta
          (pushEv { st with seen := insert id st.seen } (Event.fetchVer id)) with
      | mk st3 err =>
        have hseen3 : id ∈ st3.seen := by
          have := downloadStep_seen reg meta
            (pushEv { st with seen := insert id st.seen } (Event.fetchVer id))
          rw [hds] at this
          rw [this]
          exact Finset.mem_insert_self id st.seen
        cases err with
        | some e => exact hseen3
        | none =>
          dsimp only
          exact (ext_processDeps reg _ (fun i s => ext_walk reg m i s)
            meta.dependencies st3).1 hseen3

/-! ### No tarball-body request for an existing destination

Every `fetchTarball` event present in a result log either was already in the
log, or its destination was not on disk when the walk started. -/

/-- Tarball events reaching state `b` from `a`: each is old or aimed at a
dest that did not exist in `a`. -/
def TbNew (a b : St) : Prop :=
  ∀ u d, Event.fetchTarball u d ∈ b.log →
    Event.fetchTarball u d ∈ a.log ∨ d ∉ a.files

theorem tbNew_refl (a : St) : TbNew a a := fun _ _ h => Or.inl h

theorem tbNew_trans {a b c : St} (hab : TbNew a b) (hbc : TbNew b c)
    (hf : Ext a b) : TbNew a c := by
  intro u d h
  rcases hbc u d h with h' | h'
  · exact hab u d h'
  · right
    intro hd
    obtain ⟨_, _, t, hfl⟩ := hf
    exact h' (hfl ▸ List.mem_append_left _ hd)

theorem tbNew_pushEv_other {s : St} {e : Event}
    (he : ∀ u d, e ≠ Event.fetchTarball u d) : TbNew s (pushEv s e) := by
  intro u d h
  rcases List.mem_append.1 h with h | h
  · exact Or.inl h
  · simp only [List.mem_singleton] at h
    exact absurd h.symm (he u d)

theorem tbNew_sameLog {a b : St} (h : b.log = a.log) : TbNew a b := by
  intro u d hm
  rw [h] at hm
  exact Or.inl hm

theorem tbNew_downloadStep (reg : Registry) (m : VMeta) (st : St) :
    TbNew st (downloadStep reg m st).1 := by
  by_cases h : destOf m ∈ st.files
  · simp only [downloadStep, h, if_pos]
    exact tbNew_refl st
  · have hbody : TbNew st (pushEv st (Event.fetchTarball m.tarball (destOf m))) := by
      intro u d hm
      rcases List.mem_append.1 hm with hm | hm
      · exact Or.inl hm
      · simp only [List.mem_singleton, Event.fetchTarball.injEq] at hm
        exact Or.inr (hm.2 ▸ h)
    by_cases hb : reg.blobOk m.tarball
    · simp only [downloadStep, h, hb, ite_false, if_pos]
      exact hbody
    · simp only [downloadStep, h, hb, ite_false, if_neg]
      exact hbody

theorem tbNew_processDeps (reg : Registry) (w : Identity → St → WRes)
    (hwE : ∀ i s, Ext s (w i s).1) (hwT : ∀ i s, TbNew s (w i s).1) :
    ∀ deps st, TbNew st (processDeps reg w deps st).1 := by
  intro deps
  induction deps with
  | nil => intro st; exact tbNew_refl st
  | cons e rest ih =>
    intro st
    obtain ⟨dn, range⟩ := e
    simp only [processDeps]
    cases hfp : findPkg reg dn with
    | none => exact tbNew_pushEv_other (by intro u d hne; cases hne)
    | some vers =>
      dsimp only
      have hA : TbNew st (pushEv st (Event.fetchPkg dn)) :=
        tbNew_pushEv_other (by intro u d hne; cases hne)
      cases hms : maxSatisfying vers range with
      | some v =>
        dsimp only
        cases hw' : w (dn, v) (pushEv st (Event.fetchPkg dn)) with
        | mk stB err =>
          have hTB : TbNew st stB := by
            have hT := hwT (dn, v) (pushEv st (Event.fetchPkg dn))
            rw [hw'] at hT
            exact tbNew_trans hA hT (ext_pushEv st _)
          have hEB : Ext st stB := by
            have hE := hwE (dn, v) (pushEv st (Event.fetchPkg dn))
            rw [hw'] at hE
            exact ext_trans (ext_pushEv st _) hE
          cases err with
          | none => exact tbNew_trans hTB (ih stB) hEB
          | some e => exact hTB
      | none =>
        dsimp only
        have hA2 : TbNew st (pushEv (pushEv st (Event.fetchPkg dn)) (Event.warnNoVersion dn)) :=
          tbNew_trans hA (tbNew_pushEv_other (by intro u d hne; cases hne)) (ext_pushEv st _)
        exact tbNew_trans hA2 (ih _) (ext_trans (ext_pushEv st _) (ext_pushEv _ _))

theorem tbNew_walk (reg : Registry) :
    ∀ n id st, TbNew st (walk reg n id st).1 := by
  intro n
  induction n with
  | zero =>
    intro id st
    by_cases h : id ∈ st.seen <;>
      simp only [walk, h, if_pos, ite_false] <;>
      exact tbNew_sameLog rfl
  | succ m ih =>
    intro id st
    by_cases h : id ∈ st.seen
    · simp only [walk, h, if_pos]
      exact tbNew_refl st
    · simp only [walk, h, ite_false]
      have h1 : TbNew st { st with seen := insert id st.seen } := tbNew_sameLog rfl
      have h2 : TbNew st (pushEv { st with seen := insert id st.seen } (Event.fetchVer id)) :=
        tbNew_trans h1 (tbNew_pushEv_other (by intro u d hne; cases hne)) (ext_insert st id)
      cases hfv : findVer reg id with
      | none => exact h2
      | some meta =>
        dsimp only
        have hE2 : Ext st (pushEv { st with seen := insert id st.seen } (Event.fetchVer id)) :=
          ext_trans (ext_insert st id) (ext_pushEv _ _)
        have h3 := tbNew_trans h2
          (tbNew_downloadStep reg meta (pushEv { st with seen := insert id st.seen } (Event.fetchVer id))) hE2
        have hE3 := ext_trans hE2
          (ext_downloadStep reg meta (pushEv { st with seen := insert id st.seen } (Event.fetchVer id)))
        cases hds : downloadStep reg meta
            (pushEv { st with seen := insert id st.seen } (Event.fetchVer id)) with
        | mk st3 err =>
          rw [hds] at h3 hE3
          cases err with
          | some e => exact h3
          | none =>
            dsimp only
            exact tbNew_trans h3
              (tbNew_processDeps reg _ (fun i s => ext_walk reg m i s)
                (fun i s => ih i s) meta.dependencies st3) hE3

/-! ### Version-metadata fetched at most once per identity -/

/-- The fetch-once invariant: every logged version-metadata fetch is for a
seen identity, and no identity was fetched twice. -/
def Inv (s : St) : Prop :=
  ∀ j, (Event.fetchVer j ∈ s.log → j ∈ s.seen) ∧
    s.log.count (Event.fetchVer j) ≤ 1

theorem inv_pushEv_other {s : St} {e : Event}
    (he : ∀ j, e ≠ Event.fetchVer j) (h : Inv s) : Inv (pushEv s e) := by
  intro j
  constructor
  · intro hm
    rcases List.mem_append.1 hm with hm | hm
    · exact (h j).1 hm
    · simp only [List.mem_singleton] at hm
      exact absurd hm.symm (he j)
  · have : (pushEv s e).log.count (Event.fetchVer j) = s.log.count (Event.fetchVer j) := by
      simp [pushEv, List.count_append, List.count_cons, he j]
    rw [this]
    exact (h j).2

theorem inv_insert {s : St} (id : Identity) (h : Inv s) :
    Inv { s with seen := insert id s.seen } := by
  intro j
  exact ⟨fun hm => Finset.mem_insert_of_mem ((h j).1 hm), (h j).2⟩

theorem inv_files {s : St} (f : List String) (h : Inv s) :
    Inv { s with files := f } := h

theorem inv_downloadStep (reg : Registry) (m : VMeta) {st : St} (h : Inv st) :
    Inv (downloadStep reg m st).1 := by
  by_cases hd : destOf m ∈ st.files
  · simpa only [downloadStep, hd, if_pos] using h
  · have h1 : Inv (pushEv st (Event.fetchTarball m.tarball (destOf m))) :=
      inv_pushEv_other (by intro j hne; cases hne) h
    by_cases hb : reg.blobOk m.tarball
    · simp only [downloadStep, hd, hb, ite_false, if_pos]
      exact inv_files _ h1
    · simp only [downloadStep, hd, hb, ite_false, if_neg]
      exact h1

theorem inv_processDeps (reg : Registry) (w : Identity → St → WRes)
    (hw : ∀ i s, Inv s → Inv (w i s).1) :
    ∀ deps st, Inv st → Inv (processDeps reg w deps st).1 := by
  intro deps
  induction deps with
  | nil => intro st h; exact h
  | cons e rest ih =>
    intro st h
    obtain ⟨dn, range⟩ := e
    simp only [processDeps]
    have hA : Inv (pushEv st (Event.fetchPkg dn)) :=
      inv_pushEv_other (by intro j hne; cases hne) h
    cases hfp : findPkg reg dn with
    | none => exact hA
    | some vers =>
      dsimp only
      cases hms : maxSatisfying vers range with
      | some v =>
        dsimp only
        cases hw' : w (dn, v) (pushEv st (Event.fetchPkg dn)) with
        | mk stB err =>
          have hB : Inv stB := by
            have := hw (dn, v) (pushEv st (Event.fetchPkg dn)) hA
            rw [hw'] at this
            exact this
          cases err with
          | none => exact ih stB hB
          | some e => exact hB
      | none =>
        dsimp only
        exact ih _ (inv_pushEv_other (by intro j hne; cases hne) hA)

theorem inv_walk (reg : Registry) :
    ∀ n id st, Inv st → Inv (walk reg n id st).1 := by
  intro n
  induction n with
  | zero =>
    intro id st h
    by_cases hs : id ∈ st.seen <;> simp only [walk, hs, if_pos, ite_false] <;> exact h
  | succ m ih =>
    intro id st h
    by_cases hs : id ∈ st.seen
    · simpa only [walk, hs, if_pos] using h
    · simp only [walk, hs, ite_false]
      have h1 : Inv { st with seen := insert id st.seen } := inv_insert id h
      have h2 : Inv (pushEv { st with seen := insert id st.seen } (Event.fetchVer id)) := by
        intro j
        constructor
        · intro hm
          rcases List.mem_append.1 hm with hm | hm
          · exact (h1 j).1 hm
          · simp only [List.mem_singleton, Event.fetchVer.injEq] at hm
            subst hm
            exact Finset.mem_insert_self _ _
        · by_cases hj : j = id
          · subst hj
            have hz : st.log.count (Event.fetchVer j) = 0 := by
              rw [List.count_eq_zero]
              intro hm
              exact hs ((h j).1 hm)
            simp [pushEv, List.count_append, List.count_cons, hz]
          · have hne2 : id ≠ j := fun heq => hj heq.symm
            simp only [pushEv, List.count_append, List.count_cons, List.count_nil,
              beq_iff_eq, Event.fetchVer.injEq, hne2, if_false, ite_false]
            simpa using (h1 j).2
      cases hfv : findVer reg id with
      | none => exact h2
      | some meta =>
        dsimp only
        have h3 := inv_downloadStep reg meta h2
        cases hds : downloadStep reg meta
            (pushEv { st with seen := insert id st.seen } (Event.fetchVer id)) with
        | mk st3 err =>
          rw [hds] at h3
          cases err with
          | some e => exact h3
          | none =>
            dsimp only
            exact inv_processDeps reg _ (fun i s => ih i s) meta.dependencies st3 h3

/-! ### Termination: enough fuel is never exhausted -/

/-- All identities the registry has version metadata for; every recursion
that does real work inserts one of these into the seen-set. -/
def idents (reg : Registry) : Finset Identity :=
  (reg.versions.map (·.1)).toFinset

theorem findVer_mem_idents {reg : Registry} {id : Identity} {m : VMeta}
    (h : findVer reg id = some m) : id ∈ idents reg := by
  unfold findVer at h
  cases hf : reg.versions.find? fun p => decide (p.1 = id) with
  | none => rw [hf] at h; cases h
  | some q =>
    have hq : q ∈ reg.versions := List.mem_of_find?_eq_some hf
    have hqe := List.find?_some hf
    have hq1 : q.1 = id := by simpa using hqe
    rw [idents, List.mem_toFinset]
    exact hq1 ▸ List.mem_map_of_mem (·.1) hq

theorem processDeps_fuelOut (reg : Registry) (w : Identity → St → WRes) (m : Nat)
    (hwE : ∀ i s, Ext s (w i s).1)
    (hwF : ∀ i s, (idents reg \ s.seen).card < m → (w i s).1.fuelOut = s.fuelOut) :
    ∀ deps st, (idents reg \ st.seen).card < m →
      (processDeps reg w deps st).1.fuelOut = st.fuelOut := by
  intro deps
  induction deps with
  | nil => intro st _; rfl
  | cons e rest ih =>
    intro st hcard
    obtain ⟨dn, range⟩ := e
    simp only [processDeps]
    cases hfp : findPkg reg dn with
    | none => rfl
    | some vers =>
      dsimp only
      cases hms : maxSatisfying vers range with
      | some v =>
        dsimp only
        cases hw' : w (dn, v) (pushEv st (Event.fetchPkg dn)) with
        | mk stB err =>
          have hcardA : (idents reg \ (pushEv st (Event.fetchPkg dn)).seen).card < m := hcard
          have hFB : stB.fuelOut = st.fuelOut := by
            have := hwF (dn, v) (pushEv st (Event.fetchPkg dn)) hcardA
            rw [hw'] at this
            exact this
          have hcardB : (idents reg \ stB.seen).card < m := by
            have hseen : (pushEv st (Event.fetchPkg dn)).seen ⊆ stB.seen := by
              have := (hwE (dn, v) (pushEv st (Event.fetchPkg dn))).1
              rw [hw'] at this
              exact this
            calc (idents reg \ stB.seen).card
                ≤ (idents reg \ (pushEv st (Event.fetchPkg dn)).seen).card :=
                  Finset.card_le_card
                    (Finset.sdiff_subset_sdiff (Finset.Subset.refl _) hseen)
              _ < m := hcardA
          cases err with
          | none => rw [ih stB hcardB, hFB]
          | some e => exact hFB
      | none =>
        dsimp only
        exact ih _ hcard

theorem walk_fuelOut (reg : Registry) :
    ∀ n id st, (idents reg \ st.seen).card < n →
      (walk reg n id st).1.fuelOut = st.fuelOut := by
  intro n
  induction n with
  | zero => intro id st h; exact absurd h (Nat.not_lt_zero _)
  | succ m ih =>
    intro id st hcard
    by_cases hs : id ∈ st.seen
    · rw [walk_noop reg _ id st hs]
    · simp only [walk, hs, ite_false]
      cases hfv : findVer reg id with
      | none => rfl
      | some meta =>
        dsimp only
        have hidI : id ∈ idents reg := findVer_mem_idents hfv
        have hmemd : id ∈ idents reg \ st.seen := Finset.mem_sdiff.2 ⟨hidI, hs⟩
        have hlt : (idents reg \ insert id st.seen).card < (idents reg \ st.seen).card := by
          apply Finset.card_lt_card
          rw [Finset.ssubset_iff_of_subset
            (Finset.sdiff_subset_sdiff (Finset.Subset.refl _) (Finset.subset_insert _ _))]
          exact ⟨id, hmemd, by simp⟩
        have hcard2 : (idents reg \ insert id st.seen).card < m := by
          omega
        cases hds : downloadStep reg meta
            (pushEv { st with seen := insert id st.seen } (Event.fetchVer id)) with
        | mk st3 err =>
          have hseen3 : st3.seen = insert id st.seen := by
            have := downloadStep_seen reg meta
              (pushEv { st with seen := insert id st.seen } (Event.fetchVer id))
            rw [hds] at this
            exact this
          have hF3 : st3.fuelOut = st.fuelOut := by
            have := downloadStep_fuelOut reg meta
              (pushEv { st with seen := insert id st.seen } (Event.fetchVer id))
            rw [hds] at this
            exact this
          cases err with
          | some e => exact hF3
          | none =>
            dsimp only
            have hcard3 : (idents reg \ st3.seen).card < m := by
              rw [hseen3]
              exact hcard2
            rw [processDeps_fuelOut reg _ m (fun i s => ext_walk reg m i s)
              (fun i s hc => ih i s hc) meta.dependencies st3 hcard3, hF3]

/-! ### Every dependency edge is visited when no exception propagates -/

theorem processDeps_allPkg (reg : Registry) (w : Identity → St → WRes)
    (hwE : ∀ i s, Ext s (w i s).1) :
    ∀ deps st, (processDeps reg w deps st).2 = none →
      ∀ p ∈ deps, Event.fetchPkg p.1 ∈ (processDeps reg w deps st).1.log := by
  intro deps
  induction deps with
  | nil => intro st _ p hp; cases hp
  | cons e rest ih =>
    intro st hok p hp
    obtain ⟨dn, range⟩ := e
    simp only [processDeps] at hok ⊢
    have hA : Event.fetchPkg dn ∈ (pushEv st (Event.fetchPkg dn)).log := by
      simp [pushEv]
    cases hfp : findPkg reg dn with
    | none =>
      rw [hfp] at hok
      cases hok
    | some vers =>
      rw [hfp] at hok
      dsimp only at hok ⊢
      cases hms : maxSatisfying vers range with
      | some v =>
        rw [hms] at hok
        dsimp only at hok ⊢
        cases hw' : w (dn, v) (pushEv st (Event.fetchPkg dn)) with
        | mk stB err =>
          rw [hw'] at hok
          cases err with
          | some e => cases hok
          | none =>
            dsimp only at hok ⊢
            rcases List.mem_cons.1 hp with hpe | hp
            · subst hpe
              have hB : Event.fetchPkg dn ∈ stB.log := by
                have hE := hwE (dn, v) (pushEv st (Event.fetchPkg dn))
                rw [hw'] at hE
                exact ext_mem_log hE hA
              exact ext_mem_log (ext_processDeps reg w hwE rest stB) hB
            · exact ih stB hok p hp
      | none =>
        rw [hms] at hok
        dsimp only at hok ⊢
        rcases List.mem_cons.1 hp with hpe | hp
        · subst hpe
          have hB : Event.fetchPkg dn ∈ (pushEv (pushEv st (Event.fetchPkg dn)) (Event.warnNoVersion dn)).log :=
            ext_mem_log (ext_pushEv _ _) hA
          exact ext_mem_log (ext_processDeps reg w hwE rest _) hB
        · exact ih _ hok p hp

/-! ## The Docker image puller (`download-docker.js`)

`downloadDockerImage(imageName)` is embedded with the same style: the network
and the interactive prompts are a `DockerWorld`, the console/filesystem is a
`DSt`, every request is logged.  `process.exit(code)` — which `selectTag`
calls when no tags exist or the tag request fails — is the `some code`
component of a result and terminates the whole batch loop. -/

/-- A platform descriptor of a manifest-list entry. -/
structure Platform where
  os : String
  architecture : String
  variant : Option String
deriving DecidableEq, Repr

/-- One entry of a manifest list / OCI index. -/
structure IndexEntry where
  platform : Platform
  digest : String
deriving DecidableEq, Repr

/-- One layer descriptor of a concrete manifest. -/
structure LayerDesc where
  digest : String
deriving DecidableEq, Repr

/-- The JSON body of a manifest response; as in JavaScript, all fields are
present and the media type decides which are meaningful. -/
structure MData where
  mediaType : Option String
  manifests : List IndexEntry
  layers : List LayerDesc
  configDigest : String
deriving DecidableEq, Repr

/-- A manifest response: body plus the `content-type` response header. -/
structure MResp where
  data : MData
  contentType : String
deriving DecidableEq, Repr

/-- The registry, network and prompt oracles of the image puller: `tags` is
the `tags/list` response body (`none` models a missing `tags` field),
`manifests name ref` the manifest response (`none` models a thrown request),
`blobOk name digest` whether a blob request succeeds, `pickPlatform` the
interactive platform selection (an index into the enumerated choices) and
`pickTag` the interactive tag selection. -/
structure DockerWorld where
  tags : String → Option (List String)
  manifests : String → String → Option MResp
  blobOk : String → String → Bool
  pickPlatform : List String → Nat
  pickTag : List String → String

/-- A network or console event of the image puller. -/
inductive DEvent where
  | authReq (name : String)
  | tagsReq (name : String)
  | manifestReq (name ref : String)
  | blobReq (name digest : String)
  | noTagsError
  | layerFailNote (digest : String)
  | unsupportedNote
  | errorNote (image : String)
deriving DecidableEq, Repr

/-- The output archive of one image pull: its entry names in order, and
whether `pack.finalize()` was reached. -/
structure Archive where
  entries : List String
  finalized : Bool
deriving DecidableEq, Repr

/-- The mutable world of the image puller. -/
structure DSt where
  log : List DEvent
  files : List String
  archives : List (String × Archive)
deriving DecidableEq

/-- Append one event to the log. -/
def dPushEv (st : DSt) (e : DEvent) : DSt :=
  { st with log := st.log ++ [e] }

def mtDockerList : String := "application/vnd.docker.distribution.manifest.list.v2+json"

def mtOciIndex : String := "application/vnd.oci.image.index.v1+json"

def mtOciManifest : String := "application/vnd.oci.image.manifest.v1+json"

def mtDockerManifest : String := "application/vnd.docker.distribution.manifest.v2+json"

/-- `manifest.mediaType || manifestResponse.headers['content-type']`. -/
def effMedia (r : MResp) : String :=
  r.data.mediaType.getD r.contentType

/-- `let [name, tag] = imageName.split(':')`: the part before the first `:`
and, when a `:` occurs, the part between the first and the second `:`. -/
def parseImage (s : String) : String × Option String :=
  let cs := s.toList
  let name := cs.takeWhile fun c => c ≠ ':'
  match cs.dropWhile fun c => c ≠ ':' with
  | [] => (String.mk name, none)
  | _ :: rest => (String.mk name, some (String.mk (rest.takeWhile fun c => c ≠ ':')))

/-- Prefix a bare name with the implicit `library/` namespace. -/
def normalizeName (n : String) : String :=
  if n.toList.any fun c => c = '/' then n else "library/" ++ n

/-- `digest.replace(/[:/]/g, '_')`. -/
def sanitizeDigest (d : String) : String :=
  String.mk (d.toList.map fun c => if c = ':' ∨ c = '/' then '_' else c)

/-- The archive entry name of a layer. -/
def layerEntryName (d : String) : String :=
  "layer-" ++ sanitizeDigest d ++ ".tar.gz"

/-- The destination path
`downloads/docker-images/{name with / as _}_{tag}.tar`. -/
def imageDest (name tag : String) : String :=
  "downloads/docker-images/" ++
    String.mk (name.toList.map fun c => if c = '/' then '_' else c) ++ "_" ++ tag ++ ".tar"

/-- The label shown for one platform choice. -/
def platformLabel (e : IndexEntry) : String :=
  e.platform.os ++ "/" ++ e.platform.architecture ++
    (match e.platform.variant with
     | some v => " (" ++ v ++ ")"
     | none => "")

/-- The choice list of the platform prompt. -/
def platformChoices (l : List IndexEntry) : List String :=
  l.map platformLabel

/-- `selectTag(name)`: token request, tags request, then either
`process.exit(1)` when the `tags` field is missing or empty (or the request
failed), or the interactively chosen tag. -/
def selectTag (w : DockerWorld) (name : String) (st : DSt) : DSt × Except Nat String :=
  let st1 := dPushEv st (DEvent.authReq name)
  let st2 := dPushEv st1 (DEvent.tagsReq name)
  match w.tags name with
  | none => (dPushEv st2 DEvent.noTagsError, Except.error 1)
  | some tags =>
    if tags.isEmpty then (dPushEv st2 DEvent.noTagsError, Except.error 1)
    else (st2, Except.ok (w.pickTag tags))

/-- The tag of the pull: the explicit `name:tag` tag when present and
non-empty, otherwise `selectTag`. -/
def getTag (w : DockerWorld) (name : String) (tagOpt : Option String) (st : DSt) :
    DSt × Except Nat String :=
  match tagOpt with
  | none => selectTag w name st
  | some t => if t = "" then selectTag w name st else (st, Except.ok t)

/-- The layer loop: one blob request per layer; a success appends the layer
entry to the archive, a failure prints the per-layer note and continues. -/
def fetchLayers (w : DockerWorld) (name : String) :
    List LayerDesc → DSt → List String → DSt × List String
  | [], st, acc => (st, acc)
  | l :: rest, st, acc =>
    let st1 := dPushEv st (DEvent.blobReq name l.digest)
    if w.blobOk name l.digest then
      fetchLayers w name rest st1 (acc ++ [layerEntryName l.digest])
    else
      fetchLayers w name rest (dPushEv st1 (DEvent.layerFailNote l.digest)) acc

/-- The concrete-manifest phase: create the output file, run the layer loop,
fetch the config blob (a throw is caught by the outer handler and the
archive stays unfinalized), append `config.json` last, finalize.  A
non-concrete media type is the unsupported-format error. -/
def afterConcrete (w : DockerWorld) (imageName name dest : String) (resp : MResp)
    (st : DSt) : DSt × Option Nat :=
  if effMedia resp = mtOciManifest ∨ effMedia resp = mtDockerManifest then
    let st1 : DSt := { st with files := st.files ++ [dest] }
    match fetchLayers w name resp.data.layers st1 [] with
    | (st2, entries) =>
      let st3 := dPushEv st2 (DEvent.blobReq name resp.data.configDigest)
      if w.blobOk name resp.data.configDigest then
        ({ st3 with archives := st3.archives ++ [(dest, ⟨entries ++ ["config.json"], true⟩)] }, none)
      else
        (dPushEv { st3 with archives := st3.archives ++ [(dest, ⟨entries, false⟩)] }
          (DEvent.errorNote imageName), none)
  else
    (dPushEv st DEvent.unsupportedNote, none)

/-- The pull after the tag is known: existing-file check, token request,
manifest request; a manifest-list / OCI-index media type enumerates the
platforms, asks the prompt for one entry and re-fetches by that entry's
digest; then the concrete phase runs.  Thrown requests are caught by the
per-image handler. -/
def pullImage (w : DockerWorld) (imageName name tag : String) (st : DSt) :
    DSt × Option Nat :=
  if imageDest name tag ∈ st.files then (st, none)
  else
    let st2 := dPushEv st (DEvent.authReq name)
    let st3 := dPushEv st2 (DEvent.manifestReq name tag)
    match w.manifests name tag with
    | none => (dPushEv st3 (DEvent.errorNote imageName), none)
    | some resp =>
      if effMedia resp = mtDockerList ∨ effMedia resp = mtOciIndex then
        match resp.data.manifests[w.pickPlatform (platformChoices resp.data.manifests)]? with
        | none => (dPushEv st3 (DEvent.errorNote imageName), none)
        | some sel =>
          let st4 := dPushEv st3 (DEvent.manifestReq name sel.digest)
          match w.manifests name sel.digest with
          | none => (dPushEv st4 (DEvent.errorNote imageName), none)
          | some resp2 => afterConcrete w imageName name (imageDest name tag) resp2 st4
      else afterConcrete w imageName name (imageDest name tag) resp st3

/-- `downloadDockerImage(imageName)`: parse, normalize, obtain the tag
(possibly interactively; a `process.exit` terminates everything), pull. -/
def downloadDockerImage (w : DockerWorld) (imageName : String) (st : DSt) :
    DSt × Option Nat :=
  let name := normalizeName (parseImage imageName).1
  match getTag w name (parseImage imageName).2 st with
  | (st1, Except.error c) => (st1, some c)
  | (st1, Except.ok tag) => pullImage w imageName name tag st1

/-- The batch loop of `main`: each image is processed in order; a process
exit terminates the loop, an ordinary failure was already caught per
image. -/
def processImages (w : DockerWorld) : List String → DSt → DSt × Option Nat
  | [], st => (st, none)
  | img :: rest, st =>
    match downloadDockerImage w img st with
    | (st1, some c) => (st1, some c)
    | (st1, none) => processImages w rest st1

/-! ### Facts about the layer loop and the concrete phase -/

theorem fetchLayers_entries (w : DockerWorld) (name : String) :
    ∀ L st acc, (fetchLayers w name L st acc).2 =
      acc ++ (L.filter fun l => w.blobOk name l.digest).map fun l => layerEntryName l.digest := by
  intro L
  induction L with
  | nil => intro st acc; simp [fetchLayers]
  | cons l rest ih =>
    intro st acc
    by_cases hb : w.blobOk name l.digest
    · simp [fetchLayers, hb, ih]
    · simp [fetchLayers, hb, ih]

theorem fetchLayers_files_archives (w : DockerWorld) (name : String) :
    ∀ L st acc, (fetchLayers w name L st acc).1.files = st.files ∧
      (fetchLayers w name L st acc).1.archives = st.archives := by
  intro L
  induction L with
  | nil => intro st acc; exact ⟨rfl, rfl⟩
  | cons l rest ih =>
    intro st acc
    by_cases hb : w.blobOk name l.digest
    · simp only [fetchLayers, hb, if_pos]
      exact ih _ _
    · simp only [fetchLayers, hb, ite_false]
      exact ih _ _

theorem dlog_trans {a b c : DSt} (h1 : ∃ t, b.log = a.log ++ t)
    (h2 : ∃ t, c.log = b.log ++ t) : ∃ t, c.log = a.log ++ t := by
  obtain ⟨t1, ht1⟩ := h1
  obtain ⟨t2, ht2⟩ := h2
  exact ⟨t1 ++ t2, by rw [ht2, ht1, List.append_assoc]⟩

theorem dlog_push (s : DSt) (e : DEvent) : ∃ t, (dPushEv s e).log = s.log ++ t :=
  ⟨[e], rfl⟩

theorem fetchLayers_logExt (w : DockerWorld) (name : String) :
    ∀ L st acc, ∃ t, (fetchLayers w name L st acc).1.log = st.log ++ t := by
  intro L
  induction L with
  | nil => intro st acc; exact ⟨[], by simp [fetchLayers]⟩
  | cons l rest ih =>
    intro st acc
    by_cases hb : w.blobOk name l.digest
    · simp only [fetchLayers, hb, if_pos]
      exact dlog_trans (dlog_push st _) (ih _ _)
    · simp only [fetchLayers, hb, ite_false]
      exact dlog_trans (dlog_trans (dlog_push st _) (dlog_push _ _)) (ih _ _)

theorem fetchLayers_mem_log (w : DockerWorld) (name : String) {e : DEvent} :
    ∀ L st acc, e ∈ st.log → e ∈ (fetchLayers w name L st acc).1.log := by
  intro L st acc he
  obtain ⟨t, ht⟩ := fetchLayers_logExt w name L st acc
  rw [ht]
  exact List.mem_append_left _ he

theorem fetchLayers_blobReq (w : DockerWorld) (name : String) :
    ∀ L st acc l, l ∈ L → DEvent.blobReq name l.digest ∈ (fetchLayers w name L st acc).1.log := by
  intro L
  induction L with
  | nil => intro st acc l hl; cases hl
  | cons x rest ih =>
    intro st acc l hl
    rcases List.mem_cons.1 hl with hle | hl
    · subst hle
      by_cases hb : w.blobOk name l.digest
      · simp only [fetchLayers, hb, if_pos]
        exact fetchLayers_mem_log w name rest _ _ (by simp [dPushEv])
      · simp only [fetchLayers, hb, ite_false]
        exact fetchLayers_mem_log w name rest _ _ (by simp [dPushEv])
    · by_cases hb : w.blobOk name x.digest
      · simp only [fetchLayers, hb, if_pos]
        exact ih _ _ l hl
      · simp only [fetchLayers, hb, ite_false]
        exact ih _ _ l hl

theorem fetchLayers_failNote (w : DockerWorld) (name : String) :
    ∀ L st acc l, l ∈ L → w.blobOk name l.digest = false →
      DEvent.layerFailNote l.digest ∈ (fetchLayers w name L st acc).1.log := by
  intro L
  induction L with
  | nil => intro st acc l hl; cases hl
  | cons x rest ih =>
    intro st acc l hl hbad
    rcases List.mem_cons.1 hl with hle | hl
    · subst hle
      simp only [fetchLayers, hbad, ite_false]
      exact fetchLayers_mem_log w name rest _ _ (by simp [dPushEv])
    · by_cases hb : w.blobOk name x.digest
      · simp only [fetchLayers, hb, if_pos]
        exact ih _ _ l hl hbad
      · simp only [fetchLayers, hb, ite_false]
        exact ih _ _ l hl hbad

theorem afterConcrete_logExt (w : DockerWorld) (imageName name dest : String)
    (resp : MResp) (st : DSt) :
    ∃ t, (afterConcrete w imageName name dest resp st).1.log = st.log ++ t := by
  by_cases hc : effMedia resp = mtOciManifest ∨ effMedia resp = mtDockerManifest
  · simp only [afterConcrete, hc, if_pos]
    have h1 : ∃ t, ({ st with files := st.files ++ [dest] } : DSt).log = st.log ++ t :=
      ⟨[], by simp⟩
    have h2 := dlog_trans h1
      (fetchLayers_logExt w name resp.data.layers { st with files := st.files ++ [dest] } [])
    cases hfl : fetchLayers w name resp.data.layers { st with files := st.files ++ [dest] } [] with
    | mk st2 entries =>
      rw [hfl] at h2
      dsimp only
      have h3 : ∃ t, (dPushEv st2 (DEvent.blobReq name resp.data.configDigest)).log = st.log ++ t :=
        dlog_trans h2 (dlog_push _ _)
      by_cases hcf : w.blobOk name resp.data.configDigest
      · simp only [hcf, if_pos]
        exact h3
      · simp only [hcf, ite_false]
        refine dlog_trans (dlog_trans h3 ?_) (dlog_push _ _)
        exact ⟨[], by simp⟩
  · simp only [afterConcrete, hc, ite_false]
    exact ⟨[DEvent.unsupportedNote], rfl⟩

/-! ## Concrete instances used by witnesses and counterexamples -/

/-- The release version `1.0.0`. -/
def v100 : SemVer := ⟨1, 0, 0, []⟩

/-- The range `=1.0.0`. -/
def rEq100 : Range := [[RangeAtom.cmp CmpOp.eqOp v100]]

/-- The range `=2.0.0`, satisfied by nothing below. -/
def rEq200 : Range := [[RangeAtom.cmp CmpOp.eqOp ⟨2, 0, 0, []⟩]]

/-- A registry where `root@1.0.0` depends on `a` (whose package metadata
request throws — no entry) and on `b` (fully available). -/
def demoReg : Registry :=
  { packages := [("b", [v100])]
  , versions :=
      [ (("root", v100), ⟨[("a", rEq100), ("b", rEq100)], "http://reg.example/root-1.0.0.tgz"⟩)
      , (("b", v100), ⟨[], "http://reg.example/b-1.0.0.tgz"⟩) ]
  , blobOk := fun _ => true }

/-- A registry where `root@1.0.0` depends only on `b`, all requests
succeed. -/
def demoReg2 : Registry :=
  { packages := [("b", [v100])]
  , versions :=
      [ (("root", v100), ⟨[("b", rEq100)], "http://reg.example/root-1.0.0.tgz"⟩)
      , (("b", v100), ⟨[], "http://reg.example/b-1.0.0.tgz"⟩) ]
  , blobOk := fun _ => true }

/-- The empty start state. -/
def st0 : St := ⟨∅, [], [], false⟩

/-- A start state where the tarball of `root@1.0.0` already exists. -/
def stF : St := ⟨∅, [], ["downloads/npm-packages/root-1.0.0.tgz"], false⟩

/-- The start state of the walker with the given files on disk. -/
def initSt (files : List String) : St := ⟨∅, [], files, false⟩

/-! ## The claims -/

/-- C4: for every finite set of version strings V and every semver range R,
the version resolution step returns the maximum element of V satisfying R
under semver precedence, or a not-found signal if no element satisfies R,
and the result is independent of the order in which V is enumerated. -/
theorem c4_resolver_correct (vs vs2 : List SemVer) (r : Range) :
    (∀ m, maxSatisfying vs r = some m ↔
      m ∈ vs ∧ satisfies m r = true ∧ ∀ v ∈ vs, satisfies v r = true → svle v m) ∧
    (maxSatisfying vs r = none ↔ ∀ v ∈ vs, ¬ satisfies v r = true) ∧
    (vs.Perm vs2 → maxSatisfying vs r = maxSatisfying vs2 r) :=
  ⟨fun m => maxSatisfying_spec vs r m, maxSatisfying_none vs r,
    fun hp => maxSatisfying_perm r hp⟩

/-- Witness for C4 at concrete inputs: `^1.0.0` over `{1.0.0, 1.2.0}`
resolves to `1.2.0`, in either enumeration order. -/
theorem c4_resolver_correct_witness :
    maxSatisfying [⟨1, 0, 0, []⟩, ⟨1, 2, 0, []⟩] [[RangeAtom.caret ⟨1, 0, 0, []⟩]]
        = some ⟨1, 2, 0, []⟩ ∧
    maxSatisfying [⟨1, 0, 0, []⟩, ⟨1, 2, 0, []⟩] [[RangeAtom.caret ⟨1, 0, 0, []⟩]]
        = maxSatisfying [⟨1, 2, 0, []⟩, ⟨1, 0, 0, []⟩] [[RangeAtom.caret ⟨1, 0, 0, []⟩]] :=
  ⟨((c4_resolver_correct [⟨1, 0, 0, []⟩, ⟨1, 2, 0, []⟩] [⟨1, 2, 0, []⟩, ⟨1, 0, 0, []⟩]
      [[RangeAtom.caret ⟨1, 0, 0, []⟩]]).1 ⟨1, 2, 0, []⟩).2 (by decide),
    (c4_resolver_correct [⟨1, 0, 0, []⟩, ⟨1, 2, 0, []⟩] [⟨1, 2, 0, []⟩, ⟨1, 0, 0, []⟩]
      [[RangeAtom.caret ⟨1, 0, 0, []⟩]]).2.2 (List.Perm.swap _ _ _)⟩

/-- C3: a second call of the walker with the same `(name, version)` is a
no-op that returns immediately — the identity is in the seen-set after the
first call (it is inserted before any I/O), so the second call changes
nothing and performs no network I/O. -/
theorem c3_walk_idempotent (reg : Registry) (n m : Nat) (id : Identity) (st : St)
    (hn : 1 ≤ n) :
    id ∈ (walk reg n id st).1.seen ∧
    walk reg m id (walk reg n id st).1 = ((walk reg n id st).1, none) := by
  obtain ⟨k, rfl⟩ : ∃ k, n = k + 1 := ⟨n - 1, by omega⟩
  have h1 := walk_mem_seen reg k id st
  exact ⟨h1, walk_noop reg m id _ h1⟩

/-- Witness for C3 at a concrete registry: the second walk of `b@1.0.0` is a
no-op. -/
theorem c3_walk_idempotent_witness :
    ("b", v100) ∈ (walk demoReg 2 ("b", v100) st0).1.seen ∧
    walk demoReg 2 ("b", v100) (walk demoReg 2 ("b", v100) st0).1
      = ((walk demoReg 2 ("b", v100) st0).1, none) :=
  c3_walk_idempotent demoReg 2 2 ("b", v100) st0 (by decide)

/-- C9: when the walk of an identity fails after the identity was inserted
into the seen-set, the identity stays in the seen-set, so every later call
with the same identity returns immediately without network I/O — a failed
acquisition is never retried within the process. -/
theorem c9_failure_not_retried (reg : Registry) (n m : Nat) (id : Identity) (st : St)
    (hn : 1 ≤ n) (e : Err) (hfail : (walk reg n id st).2 = some e) :
    id ∈ (walk reg n id st).1.seen ∧
    walk reg m id (walk reg n id st).1 = ((walk reg n id st).1, none) ∧
    (walk reg m id (walk reg n id st).1).1.log = (walk reg n id st).1.log := by
  obtain ⟨k, rfl⟩ : ∃ k, n = k + 1 := ⟨n - 1, by omega⟩
  have h1 := walk_mem_seen reg k id st
  exact ⟨h1, walk_noop reg m id _ h1, by rw [walk_noop reg m id _ h1]⟩

/-- Witness for C9: the walk of `root@1.0.0` in `demoReg` throws (the
metadata of its dependency `a` is unavailable), yet the retry is a no-op. -/
theorem c9_failure_not_retried_witness :
    ("root", v100) ∈ (walk demoReg 3 ("root", v100) st0).1.seen ∧
    walk demoReg 3 ("root", v100) (walk demoReg 3 ("root", v100) st0).1
      = ((walk demoReg 3 ("root", v100) st0).1, none) ∧
    (walk demoReg 3 ("root", v100) (walk demoReg 3 ("root", v100) st0).1).1.log
      = (walk demoReg 3 ("root", v100) st0).1.log :=
  c9_failure_not_retried demoReg 3 3 ("root", v100) st0 (by decide)
    (Err.metaFail "a") (by decide)

/-- C5: when a destination path already exists on disk, the walker issues no
HTTP request for a tarball body aimed at that path — the log gains no
`fetchTarball` event with that destination, the existing file being treated
as already-correct (no checksum validation exists anywhere in the model). -/
theorem c5_existing_dest_no_body_request (reg : Registry) (n : Nat) (id : Identity)
    (st : St) (d : String) (hd : d ∈ st.files) (u : String) :
    Event.fetchTarball u d ∈ (walk reg n id st).1.log ↔
      Event.fetchTarball u d ∈ st.log := by
  constructor
  · intro h
    rcases tbNew_walk reg n id st u d h with h' | h'
    · exact h'
    · exact absurd hd h'
  · intro h
    exact ext_mem_log (ext_walk reg n id st) h

/-- Witness for C5: with the tarball of `root@1.0.0` already on disk, no
body request for it is issued. -/
theorem c5_existing_dest_no_body_request_witness :
    Event.fetchTarball "http://reg.example/root-1.0.0.tgz"
        "downloads/npm-packages/root-1.0.0.tgz" ∈ (walk demoReg2 3 ("root", v100) stF).1.log ↔
      Event.fetchTarball "http://reg.example/root-1.0.0.tgz"
        "downloads/npm-packages/root-1.0.0.tgz" ∈ stF.log :=
  c5_existing_dest_no_body_request demoReg2 3 ("root", v100) stF
    "downloads/npm-packages/root-1.0.0.tgz" (by decide)
    "http://reg.example/root-1.0.0.tgz"

/-- C8: for every dependency graph — cyclic ones included — the recursive
walk terminates (the fuel bound `|idents| + 1` is never exhausted) and every
package identity has its version metadata fetched at most once. -/
theorem c8_cycle_safe_at_most_once (reg : Registry) (files : List String)
    (id : Identity) :
    (walk reg ((idents reg).card + 1) id (initSt files)).1.fuelOut = false ∧
    ∀ j, ((walk reg ((idents reg).card + 1) id (initSt files)).1.log).count
      (Event.fetchVer j) ≤ 1 := by
  constructor
  · have hcard : (idents reg \ (initSt files).seen).card < (idents reg).card + 1 := by
      have : idents reg \ (initSt files).seen = idents reg := Finset.sdiff_empty
      rw [this]
      omega
    exact walk_fuelOut reg _ id (initSt files) hcard
  · intro j
    have hinv : Inv (initSt files) := by
      intro j
      constructor
      · intro hm
        cases hm
      · simp [initSt]
    exact (inv_walk reg _ id (initSt files) hinv j).2

/-- C1 counterexample: in `demoReg`, `root@1.0.0` has the two dependency
edges `a` and `b`; the metadata fetch of the first edge `a` throws, and the
sibling edge `b` is neither fetched nor recursed on — the claimed per-edge
isolation of thrown failures does not hold. -/
theorem c1_counterexample :
    (walk demoReg 3 ("root", v100) st0).2 = some (Err.metaFail "a") ∧
    Event.fetchPkg "b" ∉ (walk demoReg 3 ("root", v100) st0).1.log ∧
    ("b", v100) ∉ (walk demoReg 3 ("root", v100) st0).1.seen := by
  decide

/-- C1 amended: a dependency edge whose range has no satisfying version is
warned about and skipped, and the remaining sibling edges are still
processed; but an edge whose metadata fetch throws, or whose recursive
download throws, aborts the processing of the remaining sibling edges and
the failure propagates to the caller. -/
theorem c1_amended_edge_failure_semantics (reg : Registry)
    (w : Identity → St → WRes) (dn : String) (r : Range)
    (rest : List (String × Range)) (st : St) :
    (∀ vers, findPkg reg dn = some vers → maxSatisfying vers r = none →
      processDeps reg w ((dn, r) :: rest) st =
        processDeps reg w rest
          (pushEv (pushEv st (Event.fetchPkg dn)) (Event.warnNoVersion dn))) ∧
    (findPkg reg dn = none →
      processDeps reg w ((dn, r) :: rest) st =
        (pushEv st (Event.fetchPkg dn), some (Err.metaFail dn))) ∧
    (∀ vers v stB e, findPkg reg dn = some vers → maxSatisfying vers r = some v →
      w (dn, v) (pushEv st (Event.fetchPkg dn)) = (stB, some e) →
      processDeps reg w ((dn, r) :: rest) st = (stB, some e)) := by
  refine ⟨?_, ?_, ?_⟩
  · intro vers h1 h2
    simp [processDeps, h1, h2]
  · intro h1
    simp [processDeps, h1]
  · intro vers v stB e h1 h2 h3
    simp [processDeps, h1, h2, h3]

/-- Witness for the amended C1: in `demoReg`, a not-found edge (`b` with
range `=2.0.0`) is warned and the loop continues with the remaining edges,
while a thrown edge (`a`, no package metadata) aborts the loop with the
exception. -/
theorem c1_amended_edge_failure_semantics_witness :
    (processDeps demoReg (fun i s => walk demoReg 2 i s)
        (("b", rEq200) :: [("a", rEq100)]) st0 =
      processDeps demoReg (fun i s => walk demoReg 2 i s) [("a", rEq100)]
        (pushEv (pushEv st0 (Event.fetchPkg "b")) (Event.warnNoVersion "b"))) ∧
    (processDeps demoReg (fun i s => walk demoReg 2 i s)
        (("a", rEq100) :: [("b", rEq100)]) st0 =
      (pushEv st0 (Event.fetchPkg "a"), some (Err.metaFail "a"))) :=
  ⟨(c1_amended_edge_failure_semantics demoReg (fun i s => walk demoReg 2 i s)
      "b" rEq200 [("a", rEq100)] st0).1 [v100] (by decide) (by decide),
    (c1_amended_edge_failure_semantics demoReg (fun i s => walk demoReg 2 i s)
      "a" rEq100 [("b", rEq100)] st0).2.1 (by decide)⟩

/-- C10: for an identity not yet seen, the walker performs the
version-metadata request and visits every dependency edge (fetching each
dependency's package metadata) even when the destination tarball already
exists on disk; the existing-file short-circuit suppresses only the
tarball-body request. -/
theorem c10_metadata_and_edges_despite_existing_file (reg : Registry) (n : Nat)
    (id : Identity) (st : St) (meta : VMeta)
    (hs : id ∉ st.seen) (hv : findVer reg id = some meta)
    (hf : destOf meta ∈ st.files)
    (hok : (walk reg (n + 1) id st).2 = none) :
    Event.fetchVer id ∈ (walk reg (n + 1) id st).1.log ∧
    (∀ p ∈ meta.dependencies, Event.fetchPkg p.1 ∈ (walk reg (n + 1) id st).1.log) ∧
    ∀ u, Event.fetchTarball u (destOf meta) ∈ (walk reg (n + 1) id st).1.log ↔
      Event.fetchTarball u (destOf meta) ∈ st.log := by
  have hds : downloadStep reg meta
      (pushEv { st with seen := insert id st.seen } (Event.fetchVer id)) =
      (pushEv { st with seen := insert id st.seen } (Event.fetchVer id), none) := by
    simp [downloadStep, pushEv, hf]
  have hwalk : walk reg (n + 1) id st =
      processDeps reg (fun i s => walk reg n i s) meta.dependencies
        (pushEv { st with seen := insert id st.seen } (Event.fetchVer id)) := by
    simp only [walk, hs, ite_false]
    rw [hv]
    dsimp only
    rw [hds]
  rw [hwalk] at hok ⊢
  refine ⟨?_, ?_, ?_⟩
  · exact ext_mem_log
      (ext_processDeps reg _ (fun i s => ext_walk reg n i s) meta.dependencies _)
      (by simp [pushEv])
  · exact processDeps_allPkg reg _ (fun i s => ext_walk reg n i s)
      meta.dependencies _ hok
  · intro u
    constructor
    · intro h
      have htb := tbNew_processDeps reg _ (fun i s => ext_walk reg n i s)
        (fun i s => tbNew_walk reg n i s) meta.dependencies
        (pushEv { st with seen := insert id st.seen } (Event.fetchVer id)) u (destOf meta) h
      rcases htb with h' | h'
      · rcases List.mem_append.1 h' with h'' | h''
        · exact h''
        · simp only [List.mem_singleton] at h''
          cases h''
      · exact absurd hf h'
    · intro h
      exact ext_mem_log
        (ext_processDeps reg _ (fun i s => ext_walk reg n i s) meta.dependencies _)
        (by simp only [pushEv, List.mem_append]; exact Or.inl h)

/-- Witness for C10 in `demoReg2` with the tarball of `root@1.0.0` on disk:
the version metadata of `root` is fetched, the edge `b` is visited, and no
body request aims at the existing destination. -/
theorem c10_metadata_and_edges_despite_existing_file_witness :
    Event.fetchVer ("root", v100) ∈ (walk demoReg2 3 ("root", v100) stF).1.log ∧
    Event.fetchPkg "b" ∈ (walk demoReg2 3 ("root", v100) stF).1.log ∧
    ¬ Event.fetchTarball "http://reg.example/root-1.0.0.tgz"
        "downloads/npm-packages/root-1.0.0.tgz" ∈ (walk demoReg2 3 ("root", v100) stF).1.log :=
  ⟨(c10_metadata_and_edges_despite_existing_file demoReg2 2 ("root", v100) stF
      ⟨[("b", rEq100)], "http://reg.example/root-1.0.0.tgz"⟩
      (by decide) (by decide) (by decide) (by decide)).1,
    (c10_metadata_and_edges_despite_existing_file demoReg2 2 ("root", v100) stF
      ⟨[("b", rEq100)], "http://reg.example/root-1.0.0.tgz"⟩
      (by decide) (by decide) (by decide) (by decide)).2.1 ("b", rEq100) (by decide),
    fun hmem =>
      by
        have h := (c10_metadata_and_edges_despite_existing_file demoReg2 2 ("root", v100) stF
          ⟨[("b", rEq100)], "http://reg.example/root-1.0.0.tgz"⟩
          (by decide) (by decide) (by decide) (by decide)).2.2
          "http://reg.example/root-1.0.0.tgz"
        have h2 := h.1 hmem
        exact absurd h2 (by decide)⟩

/-- A world where `library/foo` has an empty tag list and every other
repository has the single tag `1`. -/
def demoWorld : DockerWorld :=
  { tags := fun n => if n = "library/foo" then some [] else some ["1"]
  , manifests := fun _ _ => none
  , blobOk := fun _ _ => false
  , pickPlatform := fun _ => 0
  , pickTag := fun l => l.headD "" }

/-- The empty start state of the image puller. -/
def dst0 : DSt := ⟨[], [], []⟩

/-- The `(linux, amd64)` entry of the demo index. -/
def idxEntry0 : IndexEntry := ⟨⟨"linux", "amd64", none⟩, "sha256:aaa"⟩

/-- The `(linux, arm64)` entry of the demo index. -/
def idxEntry1 : IndexEntry := ⟨⟨"linux", "arm64", none⟩, "sha256:bbb"⟩

/-- A two-platform OCI index response. -/
def idxResp : MResp := ⟨⟨some mtOciIndex, [idxEntry0, idxEntry1], [], ""⟩, mtOciIndex⟩

/-- A concrete manifest response with two layers; the blob of the first
layer fails in `demoWorld2`. -/
def concResp : MResp :=
  ⟨⟨some mtOciManifest, [], [⟨"sha256:l1"⟩, ⟨"sha256:l2"⟩], "sha256:cfg"⟩, mtOciManifest⟩

/-- A world serving the demo index for tag `3.18`, the concrete manifest for
the index digests and for tag `2`, failing exactly the blob `sha256:l1`, and
picking platform entry 1. -/
def demoWorld2 : DockerWorld :=
  { tags := fun _ => some ["3.18"]
  , manifests := fun _ r =>
      if r = "3.18" then some idxResp
      else if r = "sha256:bbb" ∨ r = "sha256:aaa" ∨ r = "2" then some concResp
      else none
  , blobOk := fun _ d => decide (d ≠ "sha256:l1")
  , pickPlatform := fun _ => 1
  , pickTag := fun l => l.headD "" }

/-- C2 counterexample: with the batch `["foo", "bar:1"]` and an empty tag
list for `library/foo`, the whole process exits with status 1 and the
remaining image `bar:1` is never processed — the claimed warn-and-continue
behaviour does not hold. -/
theorem c2_counterexample :
    (processImages demoWorld ["foo", "bar:1"] dst0).2 = some 1 ∧
    DEvent.manifestReq "library/bar" "1" ∉ (processImages demoWorld ["foo", "bar:1"] dst0).1.log ∧
    DEvent.noTagsError ∈ (processImages demoWorld ["foo", "bar:1"] dst0).1.log := by
  decide

/-- C2 amended: when the tag-list request of an image without an explicit
tag returns no tags (missing or empty `tags`), the condition is reported and
the process exits with status 1, so none of the remaining requested images
of the batch is processed. -/
theorem c2_amended_no_tags_exits (w : DockerWorld) (img : String)
    (rest : List String) (st : DSt) (raw : String)
    (hp : parseImage img = (raw, none))
    (ht : w.tags (normalizeName raw) = none ∨ w.tags (normalizeName raw) = some []) :
    DEvent.noTagsError ∈ (downloadDockerImage w img st).1.log ∧
    (downloadDockerImage w img st).2 = some 1 ∧
    processImages w (img :: rest) st = ((downloadDockerImage w img st).1, some 1) := by
  have hsel : selectTag w (normalizeName raw) st =
      (dPushEv (dPushEv (dPushEv st (DEvent.authReq (normalizeName raw)))
        (DEvent.tagsReq (normalizeName raw))) DEvent.noTagsError, Except.error 1) := by
    rcases ht with h | h <;> simp [selectTag, h]
  have hdl : downloadDockerImage w img st =
      (dPushEv (dPushEv (dPushEv st (DEvent.authReq (normalizeName raw)))
        (DEvent.tagsReq (normalizeName raw))) DEvent.noTagsError, some 1) := by
    simp only [downloadDockerImage, hp, getTag]
    rw [hsel]
  refine ⟨?_, ?_, ?_⟩
  · rw [hdl]
    simp [dPushEv]
  · rw [hdl]
  · simp only [processImages]
    rw [hdl]

/-- Witness for the amended C2: the batch `["foo", "bar:1"]` in `demoWorld`
exits with status 1 at the first image. -/
theorem c2_amended_no_tags_exits_witness :
    DEvent.noTagsError ∈ (downloadDockerImage demoWorld "foo" dst0).1.log ∧
    (downloadDockerImage demoWorld "foo" dst0).2 = some 1 ∧
    processImages demoWorld ["foo", "bar:1"] dst0 =
      ((downloadDockerImage demoWorld "foo" dst0).1, some 1) :=
  c2_amended_no_tags_exits demoWorld "foo" ["bar:1"] dst0 "foo"
    (by decide) (Or.inr (by decide))

/-- C6: when the first manifest response carries a manifest-list / OCI-index
media type, the puller enumerates the platform entries as prompt choices,
takes the externally selected entry, and the next manifest request uses
exactly that entry's digest as the reference. -/
theorem c6_platform_selection (w : DockerWorld) (img raw t : String) (st : DSt)
    (resp : MResp) (sel : IndexEntry)
    (hp : parseImage img = (raw, some t)) (ht : ¬ t = "")
    (hdest : imageDest (normalizeName raw) t ∉ st.files)
    (hm : w.manifests (normalizeName raw) t = some resp)
    (hmt : effMedia resp = mtDockerList ∨ effMedia resp = mtOciIndex)
    (hsel : resp.data.manifests[w.pickPlatform (platformChoices resp.data.manifests)]? = some sel) :
    ((downloadDockerImage w img st).1.log).take (st.log.length + 3) =
      st.log ++ [DEvent.authReq (normalizeName raw),
        DEvent.manifestReq (normalizeName raw) t,
        DEvent.manifestReq (normalizeName raw) sel.digest] := by
  have hdl : downloadDockerImage w img st = pullImage w img (normalizeName raw) t st := by
    simp only [downloadDockerImage, hp, getTag, ht, ite_false]
  have hpre : ∃ tl, (downloadDockerImage w img st).1.log =
      (st.log ++ [DEvent.authReq (normalizeName raw),
        DEvent.manifestReq (normalizeName raw) t,
        DEvent.manifestReq (normalizeName raw) sel.digest]) ++ tl := by
    rw [hdl]
    simp only [pullImage, hdest, ite_false, if_neg]
    rw [hm]
    dsimp only
    rw [if_pos hmt, hsel]
    dsimp only
    cases hm2 : w.manifests (normalizeName raw) sel.digest with
    | none =>
      refine ⟨[DEvent.errorNote img], ?_⟩
      simp [dPushEv, List.append_assoc]
    | some resp2 =>
      obtain ⟨tl, htl⟩ := afterConcrete_logExt w img (normalizeName raw)
        (imageDest (normalizeName raw) t) resp2
        (dPushEv (dPushEv (dPushEv st (DEvent.authReq (normalizeName raw)))
          (DEvent.manifestReq (normalizeName raw) t))
          (DEvent.manifestReq (normalizeName raw) sel.digest))
      refine ⟨tl, ?_⟩
      rw [htl]
      simp [dPushEv, List.append_assoc]
  obtain ⟨tl, htl⟩ := hpre
  rw [htl]
  have hlen : (st.log ++ [DEvent.authReq (normalizeName raw),
      DEvent.manifestReq (normalizeName raw) t,
      DEvent.manifestReq (normalizeName raw) sel.digest]).length = st.log.length + 3 := by
    simp
  rw [← hlen]
  exact List.take_left _ _

/-- Witness for C6: pulling `alpine:3.18` in `demoWorld2`, whose index lists
`(linux, amd64)` and `(linux, arm64)`, with entry 1 selected, requests the
arm64 digest `sha256:bbb` next. -/
theorem c6_platform_selection_witness :
    ((downloadDockerImage demoWorld2 "alpine:3.18" dst0).1.log).take (dst0.log.length + 3) =
      dst0.log ++ [DEvent.authReq (normalizeName "alpine"),
        DEvent.manifestReq (normalizeName "alpine") "3.18",
        DEvent.manifestReq (normalizeName "alpine") idxEntry1.digest] :=
  c6_platform_selection demoWorld2 "alpine:3.18" "alpine" "3.18" dst0 idxResp idxEntry1
    (by decide) (by decide) (by decide) (by decide) (Or.inr (by decide)) (by decide)

/-- C7: when at least one layer blob fetch fails during an image pull (and
the config blob succeeds), the failing layers are reported per layer, the
remaining layers are still attempted, and the archive is finalized with the
successfully added layer entries in order plus `config.json` last. -/
theorem c7_layer_failure_isolated (w : DockerWorld) (img raw t : String) (st : DSt)
    (resp : MResp) (lay : LayerDesc)
    (hp : parseImage img = (raw, some t)) (ht : ¬ t = "")
    (hdest : imageDest (normalizeName raw) t ∉ st.files)
    (hm : w.manifests (normalizeName raw) t = some resp)
    (hmt : effMedia resp = mtOciManifest ∨ effMedia resp = mtDockerManifest)
    (hnl : ¬ (effMedia resp = mtDockerList ∨ effMedia resp = mtOciIndex))
    (hlay : lay ∈ resp.data.layers)
    (hbad : w.blobOk (normalizeName raw) lay.digest = false)
    (hcfg : w.blobOk (normalizeName raw) resp.data.configDigest = true) :
    (downloadDockerImage w img st).2 = none ∧
    (downloadDockerImage w img st).1.archives = st.archives ++
      [(imageDest (normalizeName raw) t,
        ⟨((resp.data.layers.filter fun l => w.blobOk (normalizeName raw) l.digest).map
            fun l => layerEntryName l.digest) ++ ["config.json"], true⟩)] ∧
    DEvent.layerFailNote lay.digest ∈ (downloadDockerImage w img st).1.log ∧
    ∀ l ∈ resp.data.layers,
      DEvent.blobReq (normalizeName raw) l.digest ∈ (downloadDockerImage w img st).1.log := by
  have hdl : downloadDockerImage w img st =
      afterConcrete w img (normalizeName raw) (imageDest (normalizeName raw) t) resp
        (dPushEv (dPushEv st (DEvent.authReq (normalizeName raw)))
          (DEvent.manifestReq (normalizeName raw) t)) := by
    have h1 : downloadDockerImage w img st = pullImage w img (normalizeName raw) t st := by
      simp only [downloadDockerImage, hp, getTag, ht, ite_false]
    rw [h1]
    simp only [pullImage, hdest, ite_false, if_neg]
    rw [hm]
    dsimp only
    rw [if_neg hnl]
  set stm := dPushEv (dPushEv st (DEvent.authReq (normalizeName raw)))
    (DEvent.manifestReq (normalizeName raw) t) with hstm
  set st1 : DSt := { stm with files := stm.files ++ [imageDest (normalizeName raw) t] } with hst1
  have hac : afterConcrete w img (normalizeName raw) (imageDest (normalizeName raw) t) resp stm =
      (let fl := fetchLayers w (normalizeName raw) resp.data.layers st1 []
       let st3 := dPushEv fl.1 (DEvent.blobReq (normalizeName raw) resp.data.configDigest)
       ({ st3 with archives := st3.archives ++
          [(imageDest (normalizeName raw) t, ⟨fl.2 ++ ["config.json"], true⟩)] }, none)) := by
    simp only [afterConcrete, hmt, if_pos, hcfg]
  rw [hdl, hac]
  cases hfl : fetchLayers w (normalizeName raw) resp.data.layers st1 [] with
  | mk st2 entries =>
    dsimp only
    have hfa := fetchLayers_files_archives w (normalizeName raw) resp.data.layers st1 []
    rw [hfl] at hfa
    refine ⟨rfl, ?_, ?_, ?_⟩
    · have hent := fetchLayers_entries w (normalizeName raw) resp.data.layers st1 []
      rw [hfl] at hent
      simp only [List.nil_append] at hent
      have hfa2 : st2.archives = st1.archives := hfa.2
      have harc1 : st1.archives = st.archives := by
        rw [hst1]
        simp [hstm, dPushEv]
      dsimp only [dPushEv]
      rw [hfa2, harc1, hent]
    · have hmem := fetchLayers_failNote w (normalizeName raw) resp.data.layers st1 [] lay hlay hbad
      rw [hfl] at hmem
      have hmem2 : DEvent.layerFailNote lay.digest ∈ st2.log := hmem
      dsimp only [dPushEv]
      exact List.mem_append_left _ hmem2
    · intro l hl
      have hmem := fetchLayers_blobReq w (normalizeName raw) resp.data.layers st1 [] l hl
      rw [hfl] at hmem
      have hmem2 : DEvent.blobReq (normalizeName raw) l.digest ∈ st2.log := hmem
      dsimp only [dPushEv]
      exact List.mem_append_left _ hmem2

/-- Witness for C7: pulling `busy:2` in `demoWorld2` fails the blob of layer
`sha256:l1`, still requests layer `sha256:l2`, reports the failure, and
finalizes the archive with the surviving layer entry plus `config.json`. -/
theorem c7_layer_failure_isolated_witness :
    (downloadDockerImage demoWorld2 "busy:2" dst0).2 = none ∧
    (downloadDockerImage demoWorld2 "busy:2" dst0).1.archives = dst0.archives ++
      [(imageDest (normalizeName "busy") "2",
        ⟨((concResp.data.layers.filter fun l => demoWorld2.blobOk (normalizeName "busy") l.digest).map
            fun l => layerEntryName l.digest) ++ ["config.json"], true⟩)] ∧
    DEvent.layerFailNote "sha256:l1" ∈ (downloadDockerImage demoWorld2 "busy:2" dst0).1.log ∧
    DEvent.blobReq "library/busy" "sha256:l2" ∈ (downloadDockerImage demoWorld2 "busy:2" dst0).1.log := by
  have h := c7_layer_failure_isolated demoWorld2 "busy:2" "busy" "2" dst0 concResp ⟨"sha256:l1"⟩
    (by decide) (by decide) (by decide) (by decide) (Or.inl (by decide)) (by decide)
    (by decide) (by decide) (by decide)
  exact ⟨h.1, h.2.1, h.2.2.1, h.2.2.2 ⟨"sha256:l2"⟩ (by decide)⟩

end Shizai
